import Mathlib

/-!
Verification of the OpenArchiver search-query core
(tokenizer → recursive-descent boolean parser → Meilisearch filter compiler).

The definitions below are a shallow embedding of the TypeScript source:
the newer query parser (exporting `parseSearchQuery`,
`filterExpressionToMeiliString`, `filtersToMeiliString`) and the legacy
flat-list compiler in `services/QueryParser.ts`.  Strings are modelled as
Lean `String`s, JS numbers that hold epoch-millisecond timestamps as `Int`,
and the recursive-descent parser's mutable cursor as explicit state passing
over the remaining token list.  Recursion in the parser is driven by a fuel
parameter so that every definition is executable; lemmas below show the
fuel is irrelevant (each parse step strictly consumes tokens), so the
fuelled functions agree with the unbounded TypeScript recursion.
-/

namespace OpenArchiver

/-- Closed enumeration of filter fields, from the `QueryFilterField` union type. -/
inductive QueryFilterField where
  | «from» | «to» | cc | bcc | subject | hasAttachments
  | timestamp | ingestionSourceId | tags | path
deriving DecidableEq, Repr

/-- Rendering of a field name in template literals, i.e. the TS union member string. -/
def QueryFilterField.render : QueryFilterField → String
  | .«from» => "from"
  | .«to» => "to"
  | .cc => "cc"
  | .bcc => "bcc"
  | .subject => "subject"
  | .hasAttachments => "hasAttachments"
  | .timestamp => "timestamp"
  | .ingestionSourceId => "ingestionSourceId"
  | .tags => "tags"
  | .path => "path"

/-- Closed enumeration of comparison operators, from the `QueryFilterOperator` union type. -/
inductive QueryFilterOperator where
  | eq | lt | gt | lte | gte
deriving DecidableEq, Repr

/-- Value of a filter: the TS type `string | number | boolean`.  Numbers here are
always epoch milliseconds produced by `Date.getTime`, integral, so `Int`. -/
inductive FilterValue where
  | s (v : String)
  | n (v : Int)
  | b (v : Bool)
deriving DecidableEq, Repr

/-- Structure `QueryFilter` from the source. -/
structure QueryFilter where
  field : QueryFilterField
  operator : QueryFilterOperator
  value : FilterValue
deriving DecidableEq, Repr

/-- Recursive tagged union `FilterExpression` from the source. -/
inductive FilterExpression where
  | filter (filter : QueryFilter)
  | and (left right : FilterExpression)
  | or (left right : FilterExpression)
  | not (operand : FilterExpression)
deriving DecidableEq, Repr

/-- Structure `ParsedQuery` from the source; `filterExpression` is `Option` for
the TS `FilterExpression | null`. -/
structure ParsedQuery where
  keywords : String
  filters : List QueryFilter
  filterExpression : Option FilterExpression
deriving DecidableEq, Repr

/-- Token variants produced by `tokenize`. -/
inductive Token where
  | field (field : String) (value : String)
  | keyword (value : String)
  | quoted (value : String)
  | and
  | or
  | not
  | lparen
  | rparen
deriving DecidableEq, Repr

/-! ### Tokenizer

The source tokenizer repeatedly executes the regex
`(\w+):"([^"]*)"|\(|\)|"([^"]*)"|(\w+):([^\s()]+)|([^\s()]+)` with the `g`
flag.  Because every non-whitespace, non-paren position matches some
alternative (the last one at worst) and alternatives are tried left to
right, this is equivalent to the left-to-right scanner below. -/

/-- Character class `\w` of a JS regex without the `u` flag: ASCII letters,
digits and underscore. -/
def isWordChar (c : Char) : Bool :=
  ('a' ≤ c && c ≤ 'z') || ('A' ≤ c && c ≤ 'Z') || ('0' ≤ c && c ≤ '9') || c = '_'

/-- Character class `\s` of a JS regex, restricted to the ASCII whitespace
characters (the Unicode extras never occur in the inputs considered here). -/
def isJsSpace (c : Char) : Bool :=
  c = ' ' || c = '\t' || c = '\n' || c = '\r' || c = '\x0b' || c = '\x0c'

/-- Character class `[^\s()]` used for field values and bare words. -/
def isValueChar (c : Char) : Bool :=
  !isJsSpace c && c ≠ '(' && c ≠ ')'

/-- Attempt of the first regex alternative `(\w+):"([^"]*)"` at the current
position: a nonempty run of word characters, a colon, then a double-quoted
run (which requires a closing quote). -/
def tryFieldQuoted (l : List Char) : Option (String × String × List Char) :=
  let w := l.takeWhile isWordChar
  if w.isEmpty then none
  else
    match l.dropWhile isWordChar with
    | ':' :: '"' :: rest =>
      let q := rest.takeWhile (fun c => c ≠ '"')
      match rest.dropWhile (fun c => c ≠ '"') with
      | '"' :: rest2 => some (String.mk w, String.mk q, rest2)
      | _ => none
    | _ => none

/-- Attempt of the regex alternative `"([^"]*)"` (quoted phrase) at the
current position. -/
def tryQuoted (l : List Char) : Option (String × List Char) :=
  match l with
  | '"' :: rest =>
    let q := rest.takeWhile (fun c => c ≠ '"')
    match rest.dropWhile (fun c => c ≠ '"') with
    | '"' :: rest2 => some (String.mk q, rest2)
    | _ => none
  | _ => none

/-- Attempt of the regex alternative `(\w+):([^\s()]+)` (unquoted field token)
at the current position. -/
def tryFieldPlain (l : List Char) : Option (String × String × List Char) :=
  let w := l.takeWhile isWordChar
  if w.isEmpty then none
  else
    match l.dropWhile isWordChar with
    | ':' :: rest =>
      let v := rest.takeWhile isValueChar
      if v.isEmpty then none
      else some (String.mk w, String.mk v, rest.dropWhile isValueChar)
    | _ => none

/-- Model of JS `String.prototype.toLowerCase` on one character (ASCII range;
the inputs lower-cased by the source are `\w+` field names and short literal
values, where the ASCII mapping is exact). -/
def lowerChar (c : Char) : Char :=
  if 'A' ≤ c && c ≤ 'Z' then Char.ofNat (c.toNat + 32) else c

/-- Model of JS `String.prototype.toLowerCase`. -/
def lowerStr (s : String) : String :=
  String.mk (s.toList.map lowerChar)

/-- Set `BOOLEAN_OPERATORS` from the source, applied to a lower-cased bare word. -/
def booleanOpToken (w : String) : Option Token :=
  if w = "and" then some Token.and
  else if w = "or" then some Token.or
  else if w = "not" then some Token.not
  else none

/-- Fuelled scanner body of `tokenize`.  Each step consumes at least one
character, so fuel `l.length` is always sufficient. -/
def tokenizeF : Nat → List Char → List Token
  | 0, _ => []
  | _ + 1, [] => []
  | fuel + 1, c :: cs =>
    if c = '(' then Token.lparen :: tokenizeF fuel cs
    else if c = ')' then Token.rparen :: tokenizeF fuel cs
    else if isJsSpace c then tokenizeF fuel cs
    else
      match tryFieldQuoted (c :: cs) with
      | some (f, v, rest) => Token.field f v :: tokenizeF fuel rest
      | none =>
        match tryQuoted (c :: cs) with
        | some (v, rest) => Token.quoted v :: tokenizeF fuel rest
        | none =>
          match tryFieldPlain (c :: cs) with
          | some (f, v, rest) => Token.field f v :: tokenizeF fuel rest
          | none =>
            let w := (c :: cs).takeWhile isValueChar
            let rest := (c :: cs).dropWhile isValueChar
            match booleanOpToken (lowerStr (String.mk w)) with
            | some t => t :: tokenizeF fuel rest
            | none => Token.keyword (String.mk w) :: tokenizeF fuel rest

/-- Function `tokenize` from the source. -/
def tokenize (input : String) : List Token :=
  tokenizeF input.toList.length input.toList

/-! ### Field resolver

`fieldTokenToFilter` from the source.  The only platform primitive it uses
is `new Date(value).getTime()`; the spec (§9, design notes) fixes the date
grammar as the ISO date-only forms and directs that all other strings be
treated as resolution failures, which is what `jsDateMillis` below models
(the ECMAScript Date Time String Format date-only productions `YYYY`,
`YYYY-MM`, `YYYY-MM-DD`, interpreted at UTC midnight, with engine-style
day-of-month validation). -/

/-- Leap-year test of the proleptic Gregorian calendar. -/
def isLeapYear (y : Nat) : Bool :=
  (y % 4 = 0 && y % 100 ≠ 0) || y % 400 = 0

/-- Days in a month (1-based) of a given year; `0` for an invalid month. -/
def daysInMonth (y m : Nat) : Nat :=
  match m with
  | 1 => 31
  | 2 => if isLeapYear y then 29 else 28
  | 3 => 31 | 4 => 30 | 5 => 31 | 6 => 30 | 7 => 31
  | 8 => 31 | 9 => 30 | 10 => 31 | 11 => 30 | 12 => 31
  | _ => 0

/-- Days from 0000-01-01 to the start of year `y` (proleptic Gregorian). -/
def daysToYearStart (y : Nat) : Nat :=
  365 * y + (y + 3) / 4 - (y + 99) / 100 + (y + 399) / 400

/-- Zero-based day of year of the date `y-m-d`. -/
def dayOfYear (y m d : Nat) : Nat :=
  (List.range (m - 1)).foldl (fun acc i => acc + daysInMonth y (i + 1)) 0 + (d - 1)

/-- Days between 1970-01-01 and `y-m-d` (may be negative). -/
def epochDays (y m d : Nat) : Int :=
  (daysToYearStart y + dayOfYear y m d : Int) - 719528

/-- Decode a run of ASCII digits as a number, or fail. -/
def decDigits : List Char → Option Nat
  | [] => some 0
  | c :: cs =>
    if '0' ≤ c && c ≤ '9' then
      (decDigits cs).map (fun n => (c.toNat - '0'.toNat) * 10 ^ cs.length + n)
    else none

/-- Model of `new Date(value).getTime()` for the date-only ISO forms fixed by
the spec: `YYYY`, `YYYY-MM` and `YYYY-MM-DD` parse to UTC-midnight epoch
milliseconds; every other string yields `none` (i.e. `NaN`). -/
def jsDateMillis (value : String) : Option Int :=
  let parts : Option (Nat × Nat × Nat) :=
    match value.toList with
    | [y1, y2, y3, y4] =>
      (decDigits [y1, y2, y3, y4]).map (fun y => (y, 1, 1))
    | [y1, y2, y3, y4, '-', m1, m2] =>
      match decDigits [y1, y2, y3, y4], decDigits [m1, m2] with
      | some y, some m => some (y, m, 1)
      | _, _ => none
    | [y1, y2, y3, y4, '-', m1, m2, '-', d1, d2] =>
      match decDigits [y1, y2, y3, y4], decDigits [m1, m2], decDigits [d1, d2] with
      | some y, some m, some d => some (y, m, d)
      | _, _, _ => none
    | _ => none
  match parts with
  | some (y, m, d) =>
    if 1 ≤ m && m ≤ 12 && 1 ≤ d && d ≤ daysInMonth y m then
      some (epochDays y m d * 86400000)
    else none
  | none => none

/-- Record `FIELD_MAP` from the source, as a lookup function on the
lower-cased field name. -/
def fieldMap (lowerField : String) : Option QueryFilterField :=
  if lowerField = "from" then some .«from»
  else if lowerField = "to" then some .«to»
  else if lowerField = "cc" then some .cc
  else if lowerField = "bcc" then some .bcc
  else if lowerField = "subject" then some .subject
  else if lowerField = "in" then some .ingestionSourceId
  else if lowerField = "tag" then some .tags
  else if lowerField = "folder" then some .path
  else if lowerField = "path" then some .path
  else none

/-- Function `fieldTokenToFilter` from the source. -/
def fieldTokenToFilter (field value : String) : Option QueryFilter :=
  let lowerField := lowerStr field
  if lowerField = "has" && lowerStr value = "attachment" then
    some ⟨.hasAttachments, .eq, .b true⟩
  else if lowerField = "before" then
    match jsDateMillis value with
    | some timestamp => some ⟨.timestamp, .lt, .n timestamp⟩
    | none => none
  else if lowerField = "after" then
    match jsDateMillis value with
    | some timestamp => some ⟨.timestamp, .gte, .n timestamp⟩
    | none => none
  else
    match fieldMap lowerField with
    | some mappedField => some ⟨mappedField, .eq, .s value⟩
    | none => none

/-! ### Recursive descent parser

Class `ExpressionParser` from the source.  Its three mutable members
(`pos` into the token array, `keywordParts`, `allFilters`) become the
state record `PState`; since the cursor only moves forward, the remaining
token list replaces `pos`.  Each TS method becomes a fuelled function; the
two `while` loops become the `...Loop` functions. -/

/-- Parser state: remaining tokens, plus the `keywordParts` and
`allFilters` accumulators (appended at the right end, in push order). -/
structure PState where
  toks : List Token
  kws : List String
  fs : List QueryFilter
deriving DecidableEq, Repr

/-- Combination step shared by the `AND`/implicit-AND loop iterations:
`if (left && right) left = {and,left,right} else if (right) left = right`,
keeping `left` when `right` is null. -/
def combineAnd (left right : Option FilterExpression) : Option FilterExpression :=
  match left, right with
  | some l, some r => some (.and l r)
  | none, some r => some r
  | _, none => left

/-- Combination step of the `OR` loop iterations, same shape with an `or` node. -/
def combineOr (left right : Option FilterExpression) : Option FilterExpression :=
  match left, right with
  | some l, some r => some (.or l r)
  | none, some r => some r
  | _, none => left

mutual

/-- Method `parsePrimary` from the source. -/
def parsePrimary : Nat → PState → Option FilterExpression × PState
  | 0, s => (none, s)
  | fuel + 1, s =>
    match s.toks with
    | [] => (none, s)
    | t :: ts =>
      match t with
      | .lparen =>
        let (expr, s1) := parseOrExpr fuel ⟨ts, s.kws, s.fs⟩
        match s1.toks with
        | .rparen :: ts1 => (expr, ⟨ts1, s1.kws, s1.fs⟩)
        | _ => (expr, s1)
      | .field f v =>
        match fieldTokenToFilter f v with
        | some filter => (some (.filter filter), ⟨ts, s.kws, s.fs ++ [filter]⟩)
        | none => (none, ⟨ts, s.kws ++ [f ++ ":" ++ v], s.fs⟩)
      | .keyword v => (none, ⟨ts, s.kws ++ [v], s.fs⟩)
      | .quoted v => (none, ⟨ts, s.kws ++ ["\"" ++ v ++ "\""], s.fs⟩)
      | _ => (none, ⟨ts, s.kws, s.fs⟩)

/-- Method `parseNotExpr` from the source. -/
def parseNotExpr : Nat → PState → Option FilterExpression × PState
  | 0, s => (none, s)
  | fuel + 1, s =>
    match s.toks with
    | .not :: ts =>
      let (operand, s1) := parseNotExpr fuel ⟨ts, s.kws, s.fs⟩
      match operand with
      | some e => (some (.not e), s1)
      | none => (none, s1)
    | _ => parsePrimary fuel s

/-- Loop of method `parseAndExpr`: one iteration per explicit `AND` or
implicit-AND primary start. -/
def parseAndLoop : Nat → Option FilterExpression → PState → Option FilterExpression × PState
  | 0, left, s => (left, s)
  | fuel + 1, left, s =>
    match s.toks with
    | [] => (left, s)
    | .and :: ts =>
      let (right, s1) := parseNotExpr fuel ⟨ts, s.kws, s.fs⟩
      parseAndLoop fuel (combineAnd left right) s1
    | t :: _ =>
      match t with
      | .field _ _ | .not | .lparen =>
        let (right, s1) := parseNotExpr fuel s
        parseAndLoop fuel (combineAnd left right) s1
      | _ => (left, s)

/-- Method `parseAndExpr` from the source. -/
def parseAndExpr : Nat → PState → Option FilterExpression × PState
  | 0, s => (none, s)
  | fuel + 1, s =>
    let (left, s1) := parseNotExpr fuel s
    parseAndLoop fuel left s1

/-- Loop of method `parseOrExpr`: one iteration per `OR` token. -/
def parseOrLoop : Nat → Option FilterExpression → PState → Option FilterExpression × PState
  | 0, left, s => (left, s)
  | fuel + 1, left, s =>
    match s.toks with
    | .or :: ts =>
      let (right, s1) := parseAndExpr fuel ⟨ts, s.kws, s.fs⟩
      parseOrLoop fuel (combineOr left right) s1
    | _ => (left, s)

/-- Method `parseOrExpr` from the source. -/
def parseOrExpr : Nat → PState → Option FilterExpression × PState
  | 0, s => (none, s)
  | fuel + 1, s =>
    let (left, s1) := parseAndExpr fuel s
    parseOrLoop fuel left s1

end

/-- Fuel handed to each top-level `parseOrExpr` invocation; provably larger
than the parser can ever consume on `s.toks` (see the progress lemmas). -/
def innerFuel (s : PState) : Nat :=
  6 * s.toks.length + 8

/-- Top-level driving loop of method `parse`: repeatedly invoke the
`or_expr` parse (`tryParseExpression`) until the token stream is exhausted,
collecting every non-null expression.  One fuel unit per iteration; fuel
`toks.length + 1` suffices because every iteration strictly consumes. -/
def parseLoop : Nat → PState → List FilterExpression → List FilterExpression × PState
  | 0, s, acc => (acc, s)
  | fuel + 1, s, acc =>
    match s.toks with
    | [] => (acc, s)
    | _ :: _ =>
      let (expr, s1) := parseOrExpr (innerFuel s) s
      match expr with
      | some e => parseLoop fuel s1 (acc ++ [e])
      | none => parseLoop fuel s1 acc

/-- Fold of the collected expressions in method `parse`:
`filterExpressions.reduce((left, right) => ({type:'and', left, right}))`,
`null` when the list is empty. -/
def combineExpressions : List FilterExpression → Option FilterExpression
  | [] => none
  | e :: es => some (es.foldl (fun l r => .and l r) e)

/-- Return value of method `ExpressionParser.parse`. -/
structure ParseResult where
  expression : Option FilterExpression
  keywords : String
  filters : List QueryFilter
deriving DecidableEq, Repr

/-- Semantics of JavaScript `Array.prototype.flatten(sep)` on a string array. -/
def joinSep (sep : String) : List String → String
  | [] => ""
  | [x] => x
  | x :: xs => x ++ sep ++ joinSep sep xs

/-- Method `ExpressionParser.parse` from the source, over a token list. -/
def runParse (tokens : List Token) : ParseResult :=
  let (es, s) := parseLoop (tokens.length + 1) ⟨tokens, [], []⟩ []
  ⟨combineExpressions es, joinSep " " s.kws, s.fs⟩

/-- Function `parseSearchQuery` from the source.  The guard
`!input || !input.trim()` holds exactly when every character is whitespace. -/
def parseSearchQuery (input : String) : ParsedQuery :=
  if input.toList.all isJsSpace then ⟨"", [], none⟩
  else
    let r := runParse (tokenize input)
    ⟨r.keywords, r.filters, r.expression⟩

/-! ### Meilisearch filter string generation -/

/-- Record `OPERATOR_MAP` from the source. -/
def operatorMap : QueryFilterOperator → String
  | .eq => "="
  | .lt => "<"
  | .gt => ">"
  | .lte => "<="
  | .gte => ">="

/-- The escaping step `String(filter.value).replace(/"/g, '\\"')`: every
double quote becomes backslash-quote. -/
def escapeQuotes (v : String) : String :=
  String.mk (v.toList.foldr (fun c acc => if c = '"' then '\\' :: '"' :: acc else c :: acc) [])

/-- Function `filterToMeiliString` from the source. -/
def filterToMeiliString (filter : QueryFilter) : String :=
  let op := operatorMap filter.operator
  match filter.value with
  | .b b => filter.field.render ++ " " ++ op ++ " " ++ (if b then "true" else "false")
  | .n n => filter.field.render ++ " " ++ op ++ " " ++ toString n
  | .s v => filter.field.render ++ " " ++ op ++ " \"" ++ escapeQuotes v ++ "\""

/-- Function `filterExpressionToMeiliString` from the source. -/
def filterExpressionToMeiliString : FilterExpression → String
  | .filter filter => filterToMeiliString filter
  | .and left right =>
    filterExpressionToMeiliString left ++ " AND " ++ filterExpressionToMeiliString right
  | .or left right =>
    "(" ++ filterExpressionToMeiliString left ++ " OR " ++ filterExpressionToMeiliString right ++ ")"
  | .not operand => "NOT (" ++ filterExpressionToMeiliString operand ++ ")"

/-- Function `filtersToMeiliString` from the source (the core's flat-list
compatibility path): join per-leaf renderings with " AND ", empty string
for the empty list. -/
def filtersToMeiliString (filters : List QueryFilter) : String :=
  joinSep " AND " (filters.map filterToMeiliString)

namespace Legacy

/-- Per-leaf rendering of the legacy `filtersToMeiliString` in
`services/QueryParser.ts`: identical to the core's except that string
values are interpolated into the double quotes without escaping. -/
def filterToMeiliString (f : QueryFilter) : String :=
  let op := operatorMap f.operator
  match f.value with
  | .b b => f.field.render ++ " " ++ op ++ " " ++ (if b then "true" else "false")
  | .n n => f.field.render ++ " " ++ op ++ " " ++ toString n
  | .s v => f.field.render ++ " " ++ op ++ " \"" ++ v ++ "\""

/-- Function `filtersToMeiliString` of `services/QueryParser.ts`. -/
def filtersToMeiliString (filters : List QueryFilter) : String :=
  joinSep " AND " (filters.map Legacy.filterToMeiliString)

end Legacy

/-- Leaves of a filter expression, flattened in in-order traversal order
(the order each leaf was first encountered during the parse). -/
def flattenLeaves : FilterExpression → List QueryFilter
  | .filter f => [f]
  | .and l r => flattenLeaves l ++ flattenLeaves r
  | .or l r => flattenLeaves l ++ flattenLeaves r
  | .not e => flattenLeaves e

/-- Leaves of an optional expression (`[]` for `none`). -/
def flattenOpt : Option FilterExpression → List QueryFilter
  | none => []
  | some e => flattenLeaves e

/-! ### Parser lemmas: the cursor only moves forward -/

theorem parse_toks_le (fuel : Nat) :
    (∀ s, ((parsePrimary fuel s).2).toks.length ≤ s.toks.length) ∧
    (∀ s, ((parseNotExpr fuel s).2).toks.length ≤ s.toks.length) ∧
    (∀ left s, ((parseAndLoop fuel left s).2).toks.length ≤ s.toks.length) ∧
    (∀ s, ((parseAndExpr fuel s).2).toks.length ≤ s.toks.length) ∧
    (∀ left s, ((parseOrLoop fuel left s).2).toks.length ≤ s.toks.length) ∧
    (∀ s, ((parseOrExpr fuel s).2).toks.length ≤ s.toks.length) := by
  induction fuel with
  | zero =>
    refine ⟨fun s => ?_, fun s => ?_, fun left s => ?_, fun s => ?_, fun left s => ?_,
      fun s => ?_⟩ <;>
      simp [parsePrimary, parseNotExpr, parseAndLoop, parseAndExpr, parseOrLoop, parseOrExpr]
  | succ f ih =>
    obtain ⟨ihP, ihN, ihAL, ihA, ihOL, ihO⟩ := ih
    have hP : ∀ s, ((parsePrimary (f + 1) s).2).toks.length ≤ s.toks.length := by
      rintro ⟨toks, kws, fs⟩
      cases toks with
      | nil => simp [parsePrimary]
      | cons t ts =>
        cases t with
        | lparen =>
          have h := ihO ⟨ts, kws, fs⟩
          rcases h1 : parseOrExpr f ⟨ts, kws, fs⟩ with ⟨e1, s1⟩
          rw [h1] at h
          rcases s1 with ⟨toks1, kws1, fs1⟩
          cases toks1 with
          | nil => simp_all [parsePrimary]
          | cons t1 ts1 => cases t1 <;> simp_all [parsePrimary] <;> omega
        | field fname fval =>
          cases hf : fieldTokenToFilter fname fval <;> simp [parsePrimary, hf]
        | keyword v => simp [parsePrimary]
        | quoted v => simp [parsePrimary]
        | and => simp [parsePrimary]
        | or => simp [parsePrimary]
        | not => simp [parsePrimary]
        | rparen => simp [parsePrimary]
    have hN : ∀ s, ((parseNotExpr (f + 1) s).2).toks.length ≤ s.toks.length := by
      rintro ⟨toks, kws, fs⟩
      cases toks with
      | nil => simpa [parseNotExpr] using ihP ⟨[], kws, fs⟩
      | cons t ts =>
        cases t with
        | not =>
          have h := ihN ⟨ts, kws, fs⟩
          rcases h1 : parseNotExpr f ⟨ts, kws, fs⟩ with ⟨e1, s1⟩
          rw [h1] at h
          cases e1 <;> simp_all [parseNotExpr] <;> omega
        | lparen => simpa [parseNotExpr] using ihP ⟨Token.lparen :: ts, kws, fs⟩
        | rparen => simpa [parseNotExpr] using ihP ⟨Token.rparen :: ts, kws, fs⟩
        | field fname fval => simpa [parseNotExpr] using ihP ⟨Token.field fname fval :: ts, kws, fs⟩
        | keyword v => simpa [parseNotExpr] using ihP ⟨Token.keyword v :: ts, kws, fs⟩
        | quoted v => simpa [parseNotExpr] using ihP ⟨Token.quoted v :: ts, kws, fs⟩
        | and => simpa [parseNotExpr] using ihP ⟨Token.and :: ts, kws, fs⟩
        | or => simpa [parseNotExpr] using ihP ⟨Token.or :: ts, kws, fs⟩
    have hAL : ∀ left s, ((parseAndLoop (f + 1) left s).2).toks.length ≤ s.toks.length := by
      rintro left ⟨toks, kws, fs⟩
      cases toks with
      | nil => simp [parseAndLoop]
      | cons t ts =>
        have step : ∀ (s0 : PState), s0.toks.length ≤ (t :: ts).length →
            ∀ l0, ((parseAndLoop f l0 ((parseNotExpr f s0).2)).2).toks.length ≤
              (t :: ts).length := by
          intro s0 h0 l0
          have h1 := ihN s0
          have h2 := ihAL l0 ((parseNotExpr f s0).2)
          omega
        cases t with
        | and =>
          have h1 := ihN ⟨ts, kws, fs⟩
          have h2 := ihAL (combineAnd left (parseNotExpr f ⟨ts, kws, fs⟩).1)
            ((parseNotExpr f ⟨ts, kws, fs⟩).2)
          simp only [parseAndLoop]
          simp only [List.length_cons] at *
          omega
        | field fname fval =>
          have h1 := ihN ⟨Token.field fname fval :: ts, kws, fs⟩
          have h2 := ihAL (combineAnd left (parseNotExpr f ⟨Token.field fname fval :: ts, kws, fs⟩).1)
            ((parseNotExpr f ⟨Token.field fname fval :: ts, kws, fs⟩).2)
          simp only [parseAndLoop]
          simp only [List.length_cons] at *
          omega
        | not =>
          have h1 := ihN ⟨Token.not :: ts, kws, fs⟩
          have h2 := ihAL (combineAnd left (parseNotExpr f ⟨Token.not :: ts, kws, fs⟩).1)
            ((parseNotExpr f ⟨Token.not :: ts, kws, fs⟩).2)
          simp only [parseAndLoop]
          simp only [List.length_cons] at *
          omega
        | lparen =>
          have h1 := ihN ⟨Token.lparen :: ts, kws, fs⟩
          have h2 := ihAL (combineAnd left (parseNotExpr f ⟨Token.lparen :: ts, kws, fs⟩).1)
            ((parseNotExpr f ⟨Token.lparen :: ts, kws, fs⟩).2)
          simp only [parseAndLoop]
          simp only [List.length_cons] at *
          omega
        | keyword v => simp [parseAndLoop]
        | quoted v => simp [parseAndLoop]
        | or => simp [parseAndLoop]
        | rparen => simp [parseAndLoop]
    have hA : ∀ s, ((parseAndExpr (f + 1) s).2).toks.length ≤ s.toks.length := by
      intro s
      have h1 := ihN s
      have h2 := ihAL (parseNotExpr f s).1 ((parseNotExpr f s).2)
      simp only [parseAndExpr]
      omega
    have hOL : ∀ left s, ((parseOrLoop (f + 1) left s).2).toks.length ≤ s.toks.length := by
      rintro left ⟨toks, kws, fs⟩
      cases toks with
      | nil => simp [parseOrLoop]
      | cons t ts =>
        cases t with
        | or =>
          have h1 := ihA ⟨ts, kws, fs⟩
          have h2 := ihOL (combineOr left (parseAndExpr f ⟨ts, kws, fs⟩).1)
            ((parseAndExpr f ⟨ts, kws, fs⟩).2)
          simp only [parseOrLoop]
          simp only [List.length_cons] at *
          omega
        | and => simp [parseOrLoop]
        | not => simp [parseOrLoop]
        | lparen => simp [parseOrLoop]
        | rparen => simp [parseOrLoop]
        | field fname fval => simp [parseOrLoop]
        | keyword v => simp [parseOrLoop]
        | quoted v => simp [parseOrLoop]
    have hO : ∀ s, ((parseOrExpr (f + 1) s).2).toks.length ≤ s.toks.length := by
      intro s
      have h1 := ihA s
      have h2 := ihOL (parseAndExpr f s).1 ((parseAndExpr f s).2)
      simp only [parseOrExpr]
      omega
    exact ⟨hP, hN, hAL, hA, hOL, hO⟩

theorem parsePrimary_toks_le (fuel : Nat) (s : PState) :
    ((parsePrimary fuel s).2).toks.length ≤ s.toks.length :=
  (parse_toks_le fuel).1 s

theorem parseNotExpr_toks_le (fuel : Nat) (s : PState) :
    ((parseNotExpr fuel s).2).toks.length ≤ s.toks.length :=
  (parse_toks_le fuel).2.1 s

theorem parseAndLoop_toks_le (fuel : Nat) (left : Option FilterExpression) (s : PState) :
    ((parseAndLoop fuel left s).2).toks.length ≤ s.toks.length :=
  (parse_toks_le fuel).2.2.1 left s

theorem parseAndExpr_toks_le (fuel : Nat) (s : PState) :
    ((parseAndExpr fuel s).2).toks.length ≤ s.toks.length :=
  (parse_toks_le fuel).2.2.2.1 s

theorem parseOrLoop_toks_le (fuel : Nat) (left : Option FilterExpression) (s : PState) :
    ((parseOrLoop fuel left s).2).toks.length ≤ s.toks.length :=
  (parse_toks_le fuel).2.2.2.2.1 left s

theorem parseOrExpr_toks_le (fuel : Nat) (s : PState) :
    ((parseOrExpr fuel s).2).toks.length ≤ s.toks.length :=
  (parse_toks_le fuel).2.2.2.2.2 s

/-! ### Progress: every parse step on a nonempty stream consumes a token -/

theorem parsePrimary_toks_lt (fuel : Nat) (s : PState) (hf : 1 ≤ fuel)
    (hne : s.toks ≠ []) : ((parsePrimary fuel s).2).toks.length < s.toks.length := by
  obtain ⟨f, rfl⟩ : ∃ f, fuel = f + 1 := ⟨fuel - 1, by omega⟩
  rcases s with ⟨toks, kws, fs⟩
  cases toks with
  | nil => simp at hne
  | cons t ts =>
    cases t with
    | lparen =>
      have h := parseOrExpr_toks_le f ⟨ts, kws, fs⟩
      rcases h1 : parseOrExpr f ⟨ts, kws, fs⟩ with ⟨e1, s1⟩
      rw [h1] at h
      rcases s1 with ⟨toks1, kws1, fs1⟩
      cases toks1 with
      | nil => simp_all [parsePrimary]
      | cons t1 ts1 => cases t1 <;> simp_all [parsePrimary] <;> omega
    | field fname fval =>
      cases hf : fieldTokenToFilter fname fval <;> simp [parsePrimary, hf]
    | keyword v => simp [parsePrimary]
    | quoted v => simp [parsePrimary]
    | and => simp [parsePrimary]
    | or => simp [parsePrimary]
    | not => simp [parsePrimary]
    | rparen => simp [parsePrimary]

theorem parseNotExpr_toks_lt (fuel : Nat) (s : PState) (hf : 2 ≤ fuel)
    (hne : s.toks ≠ []) : ((parseNotExpr fuel s).2).toks.length < s.toks.length := by
  obtain ⟨f, rfl⟩ : ∃ f, fuel = f + 1 := ⟨fuel - 1, by omega⟩
  rcases s with ⟨toks, kws, fs⟩
  cases toks with
  | nil => simp at hne
  | cons t ts =>
    cases t with
    | not =>
      have h := parseNotExpr_toks_le f ⟨ts, kws, fs⟩
      rcases h1 : parseNotExpr f ⟨ts, kws, fs⟩ with ⟨e1, s1⟩
      rw [h1] at h
      cases e1 <;> simp_all [parseNotExpr] <;> omega
    | lparen =>
      simpa [parseNotExpr] using
        parsePrimary_toks_lt f ⟨Token.lparen :: ts, kws, fs⟩ (by omega) (by simp)
    | rparen =>
      simpa [parseNotExpr] using
        parsePrimary_toks_lt f ⟨Token.rparen :: ts, kws, fs⟩ (by omega) (by simp)
    | field fname fval =>
      simpa [parseNotExpr] using
        parsePrimary_toks_lt f ⟨Token.field fname fval :: ts, kws, fs⟩ (by omega) (by simp)
    | keyword v =>
      simpa [parseNotExpr] using
        parsePrimary_toks_lt f ⟨Token.keyword v :: ts, kws, fs⟩ (by omega) (by simp)
    | quoted v =>
      simpa [parseNotExpr] using
        parsePrimary_toks_lt f ⟨Token.quoted v :: ts, kws, fs⟩ (by omega) (by simp)
    | and =>
      simpa [parseNotExpr] using
        parsePrimary_toks_lt f ⟨Token.and :: ts, kws, fs⟩ (by omega) (by simp)
    | or =>
      simpa [parseNotExpr] using
        parsePrimary_toks_lt f ⟨Token.or :: ts, kws, fs⟩ (by omega) (by simp)

theorem parseAndExpr_toks_lt (fuel : Nat) (s : PState) (hf : 3 ≤ fuel)
    (hne : s.toks ≠ []) : ((parseAndExpr fuel s).2).toks.length < s.toks.length := by
  obtain ⟨f, rfl⟩ : ∃ f, fuel = f + 1 := ⟨fuel - 1, by omega⟩
  have h1 := parseNotExpr_toks_lt f s (by omega) hne
  have h2 := parseAndLoop_toks_le f (parseNotExpr f s).1 ((parseNotExpr f s).2)
  simp only [parseAndExpr]
  omega

theorem parseOrExpr_toks_lt (fuel : Nat) (s : PState) (hf : 4 ≤ fuel)
    (hne : s.toks ≠ []) : ((parseOrExpr fuel s).2).toks.length < s.toks.length := by
  obtain ⟨f, rfl⟩ : ∃ f, fuel = f + 1 := ⟨fuel - 1, by omega⟩
  have h1 := parseAndExpr_toks_lt f s (by omega) hne
  have h2 := parseOrLoop_toks_le f (parseAndExpr f s).1 ((parseAndExpr f s).2)
  simp only [parseOrExpr]
  omega

/-- The driving loop always runs the cursor to the end of the token stream:
with fuel exceeding the number of remaining tokens (as used by `runParse`),
the final state has no tokens left. -/
theorem parseLoop_toks_nil : ∀ (fuel : Nat) (s : PState) (acc : List FilterExpression),
    s.toks.length < fuel → ((parseLoop fuel s acc).2).toks = [] := by
  intro fuel
  induction fuel with
  | zero => intro s acc h; omega
  | succ f ih =>
    rintro ⟨toks, kws, fs⟩ acc h
    cases toks with
    | nil => simp [parseLoop]
    | cons t ts =>
      rcases h1 : parseOrExpr (innerFuel ⟨t :: ts, kws, fs⟩) ⟨t :: ts, kws, fs⟩ with ⟨e1, s1⟩
      have hlt : s1.toks.length < (t :: ts).length := by
        have hp := parseOrExpr_toks_lt (innerFuel ⟨t :: ts, kws, fs⟩) ⟨t :: ts, kws, fs⟩
          (by simp [innerFuel]) (by simp)
        rw [h1] at hp
        exact hp
      simp only [List.length_cons] at h hlt
      cases e1 <;> simp only [parseLoop, h1] <;> exact ih s1 _ (by omega)

/-! ### The `allFilters` accumulator tracks exactly the leaves of the result -/

theorem flattenOpt_combineAnd (l r : Option FilterExpression) :
    flattenOpt (combineAnd l r) = flattenOpt l ++ flattenOpt r := by
  cases l <;> cases r <;> simp [combineAnd, flattenOpt, flattenLeaves]

theorem flattenOpt_combineOr (l r : Option FilterExpression) :
    flattenOpt (combineOr l r) = flattenOpt l ++ flattenOpt r := by
  cases l <;> cases r <;> simp [combineOr, flattenOpt, flattenLeaves]

theorem parse_filters_spec (fuel : Nat) :
    (∀ s, ∃ d, ((parsePrimary fuel s).2).fs = s.fs ++ d ∧
      flattenOpt (parsePrimary fuel s).1 = d) ∧
    (∀ s, ∃ d, ((parseNotExpr fuel s).2).fs = s.fs ++ d ∧
      flattenOpt (parseNotExpr fuel s).1 = d) ∧
    (∀ left s, ∃ d, ((parseAndLoop fuel left s).2).fs = s.fs ++ d ∧
      flattenOpt (parseAndLoop fuel left s).1 = flattenOpt left ++ d) ∧
    (∀ s, ∃ d, ((parseAndExpr fuel s).2).fs = s.fs ++ d ∧
      flattenOpt (parseAndExpr fuel s).1 = d) ∧
    (∀ left s, ∃ d, ((parseOrLoop fuel left s).2).fs = s.fs ++ d ∧
      flattenOpt (parseOrLoop fuel left s).1 = flattenOpt left ++ d) ∧
    (∀ s, ∃ d, ((parseOrExpr fuel s).2).fs = s.fs ++ d ∧
      flattenOpt (parseOrExpr fuel s).1 = d) := by
  induction fuel with
  | zero =>
    refine ⟨fun s => ⟨[], ?_⟩, fun s => ⟨[], ?_⟩, fun left s => ⟨[], ?_⟩, fun s => ⟨[], ?_⟩,
      fun left s => ⟨[], ?_⟩, fun s => ⟨[], ?_⟩⟩ <;>
      simp [parsePrimary, parseNotExpr, parseAndLoop, parseAndExpr, parseOrLoop, parseOrExpr,
        flattenOpt]
  | succ f ih =>
    obtain ⟨ihP, ihN, ihAL, ihA, ihOL, ihO⟩ := ih
    have hP : ∀ s, ∃ d, ((parsePrimary (f + 1) s).2).fs = s.fs ++ d ∧
        flattenOpt (parsePrimary (f + 1) s).1 = d := by
      rintro ⟨toks, kws, fs⟩
      cases toks with
      | nil => exact ⟨[], by simp [parsePrimary, flattenOpt]⟩
      | cons t ts =>
        cases t with
        | lparen =>
          obtain ⟨d, hfs, hfl⟩ := ihO ⟨ts, kws, fs⟩
          rcases h1 : parseOrExpr f ⟨ts, kws, fs⟩ with ⟨e1, s1⟩
          rw [h1] at hfs hfl
          rcases s1 with ⟨toks1, kws1, fs1⟩
          cases toks1 with
          | nil => exact ⟨d, by simp_all [parsePrimary]⟩
          | cons t1 ts1 =>
            cases t1 <;> exact ⟨d, by simp_all [parsePrimary]⟩
        | field fname fval =>
          cases hf : fieldTokenToFilter fname fval with
          | some q =>
            exact ⟨[q], by simp [parsePrimary, hf, flattenOpt, flattenLeaves]⟩
          | none => exact ⟨[], by simp [parsePrimary, hf, flattenOpt]⟩
        | keyword v => exact ⟨[], by simp [parsePrimary, flattenOpt]⟩
        | quoted v => exact ⟨[], by simp [parsePrimary, flattenOpt]⟩
        | and => exact ⟨[], by simp [parsePrimary, flattenOpt]⟩
        | or => exact ⟨[], by simp [parsePrimary, flattenOpt]⟩
        | not => exact ⟨[], by simp [parsePrimary, flattenOpt]⟩
        | rparen => exact ⟨[], by simp [parsePrimary, flattenOpt]⟩
    have hN : ∀ s, ∃ d, ((parseNotExpr (f + 1) s).2).fs = s.fs ++ d ∧
        flattenOpt (parseNotExpr (f + 1) s).1 = d := by
      rintro ⟨toks, kws, fs⟩
      cases toks with
      | nil => simpa [parseNotExpr] using ihP ⟨[], kws, fs⟩
      | cons t ts =>
        cases t with
        | not =>
          obtain ⟨d, hfs, hfl⟩ := ihN ⟨ts, kws, fs⟩
          rcases h1 : parseNotExpr f ⟨ts, kws, fs⟩ with ⟨e1, s1⟩
          rw [h1] at hfs hfl
          cases e1 with
          | none => exact ⟨d, by simp_all [parseNotExpr, flattenOpt]⟩
          | some e =>
            exact ⟨d, by simp_all [parseNotExpr, flattenOpt, flattenLeaves]⟩
        | lparen => simpa [parseNotExpr] using ihP ⟨Token.lparen :: ts, kws, fs⟩
        | rparen => simpa [parseNotExpr] using ihP ⟨Token.rparen :: ts, kws, fs⟩
        | field fname fval =>
          simpa [parseNotExpr] using ihP ⟨Token.field fname fval :: ts, kws, fs⟩
        | keyword v => simpa [parseNotExpr] using ihP ⟨Token.keyword v :: ts, kws, fs⟩
        | quoted v => simpa [parseNotExpr] using ihP ⟨Token.quoted v :: ts, kws, fs⟩
        | and => simpa [parseNotExpr] using ihP ⟨Token.and :: ts, kws, fs⟩
        | or => simpa [parseNotExpr] using ihP ⟨Token.or :: ts, kws, fs⟩
    have step : ∀ (left : Option FilterExpression) (s0 : PState),
        ∃ d, ((parseAndLoop f (combineAnd left (parseNotExpr f s0).1)
            ((parseNotExpr f s0).2)).2).fs = s0.fs ++ d ∧
          flattenOpt (parseAndLoop f (combineAnd left (parseNotExpr f s0).1)
            ((parseNotExpr f s0).2)).1 = flattenOpt left ++ d := by
      intro left s0
      obtain ⟨d1, hfs1, hfl1⟩ := ihN s0
      obtain ⟨d2, hfs2, hfl2⟩ := ihAL (combineAnd left (parseNotExpr f s0).1)
        ((parseNotExpr f s0).2)
      refine ⟨d1 ++ d2, ?_, ?_⟩
      · rw [hfs2, hfs1, List.append_assoc]
      · rw [hfl2, flattenOpt_combineAnd, hfl1, List.append_assoc]
    have hAL : ∀ left s, ∃ d, ((parseAndLoop (f + 1) left s).2).fs = s.fs ++ d ∧
        flattenOpt (parseAndLoop (f + 1) left s).1 = flattenOpt left ++ d := by
      rintro left ⟨toks, kws, fs⟩
      cases toks with
      | nil => exact ⟨[], by simp [parseAndLoop]⟩
      | cons t ts =>
        cases t with
        | and => simpa [parseAndLoop] using step left ⟨ts, kws, fs⟩
        | field fname fval =>
          simpa [parseAndLoop] using step left ⟨Token.field fname fval :: ts, kws, fs⟩
        | not => simpa [parseAndLoop] using step left ⟨Token.not :: ts, kws, fs⟩
        | lparen => simpa [parseAndLoop] using step left ⟨Token.lparen :: ts, kws, fs⟩
        | keyword v => exact ⟨[], by simp [parseAndLoop]⟩
        | quoted v => exact ⟨[], by simp [parseAndLoop]⟩
        | or => exact ⟨[], by simp [parseAndLoop]⟩
        | rparen => exact ⟨[], by simp [parseAndLoop]⟩
    have hA : ∀ s, ∃ d, ((parseAndExpr (f + 1) s).2).fs = s.fs ++ d ∧
        flattenOpt (parseAndExpr (f + 1) s).1 = d := by
      intro s
      obtain ⟨d1, hfs1, hfl1⟩ := ihN s
      obtain ⟨d2, hfs2, hfl2⟩ := ihAL (parseNotExpr f s).1 ((parseNotExpr f s).2)
      refine ⟨d1 ++ d2, ?_, ?_⟩
      · simp only [parseAndExpr]
        rw [hfs2, hfs1, List.append_assoc]
      · simp only [parseAndExpr]
        rw [hfl2, hfl1]
    have hOL : ∀ left s, ∃ d, ((parseOrLoop (f + 1) left s).2).fs = s.fs ++ d ∧
        flattenOpt (parseOrLoop (f + 1) left s).1 = flattenOpt left ++ d := by
      rintro left ⟨toks, kws, fs⟩
      cases toks with
      | nil => exact ⟨[], by simp [parseOrLoop]⟩
      | cons t ts =>
        cases t with
        | or =>
          obtain ⟨d1, hfs1, hfl1⟩ := ihA ⟨ts, kws, fs⟩
          obtain ⟨d2, hfs2, hfl2⟩ := ihOL (combineOr left (parseAndExpr f ⟨ts, kws, fs⟩).1)
            ((parseAndExpr f ⟨ts, kws, fs⟩).2)
          refine ⟨d1 ++ d2, ?_, ?_⟩
          · simp only [parseOrLoop]
            rw [hfs2, hfs1, List.append_assoc]
          · simp only [parseOrLoop]
            rw [hfl2, flattenOpt_combineOr, hfl1, List.append_assoc]
        | and => exact ⟨[], by simp [parseOrLoop]⟩
        | not => exact ⟨[], by simp [parseOrLoop]⟩
        | lparen => exact ⟨[], by simp [parseOrLoop]⟩
        | rparen => exact ⟨[], by simp [parseOrLoop]⟩
        | field fname fval => exact ⟨[], by simp [parseOrLoop]⟩
        | keyword v => exact ⟨[], by simp [parseOrLoop]⟩
        | quoted v => exact ⟨[], by simp [parseOrLoop]⟩
    have hO : ∀ s, ∃ d, ((parseOrExpr (f + 1) s).2).fs = s.fs ++ d ∧
        flattenOpt (parseOrExpr (f + 1) s).1 = d := by
      intro s
      obtain ⟨d1, hfs1, hfl1⟩ := ihA s
      obtain ⟨d2, hfs2, hfl2⟩ := ihOL (parseAndExpr f s).1 ((parseAndExpr f s).2)
      refine ⟨d1 ++ d2, ?_, ?_⟩
      · simp only [parseOrExpr]
        rw [hfs2, hfs1, List.append_assoc]
      · simp only [parseOrExpr]
        rw [hfl2, hfl1]
    exact ⟨hP, hN, hAL, hA, hOL, hO⟩

theorem parseOrExpr_filters_spec (fuel : Nat) (s : PState) :
    ∃ d, ((parseOrExpr fuel s).2).fs = s.fs ++ d ∧
      flattenOpt (parseOrExpr fuel s).1 = d :=
  (parse_filters_spec fuel).2.2.2.2.2 s

/-- Every expression has at least one leaf. -/
theorem flattenLeaves_ne_nil (e : FilterExpression) : flattenLeaves e ≠ [] := by
  induction e with
  | filter f => simp [flattenLeaves]
  | and l r ihl ihr => simp [flattenLeaves]; intro h; exact absurd h ihl
  | or l r ihl ihr => simp [flattenLeaves]; intro h; exact absurd h ihl
  | not e ih => simpa [flattenLeaves] using ih

theorem flattenOpt_eq_nil (x : Option FilterExpression) :
    flattenOpt x = [] ↔ x = none := by
  cases x with
  | none => simp [flattenOpt]
  | some e => simp [flattenOpt, flattenLeaves_ne_nil e]

theorem parseLoop_filters_spec : ∀ (fuel : Nat) (s : PState) (acc : List FilterExpression),
    ∃ d, ((parseLoop fuel s acc).2).fs = s.fs ++ d ∧
      (((parseLoop fuel s acc).1).map flattenLeaves).flatten =
        ((acc.map flattenLeaves).flatten) ++ d := by
  intro fuel
  induction fuel with
  | zero => intro s acc; exact ⟨[], by simp [parseLoop]⟩
  | succ f ih =>
    rintro ⟨toks, kws, fs⟩ acc
    cases toks with
    | nil => exact ⟨[], by simp [parseLoop]⟩
    | cons t ts =>
      obtain ⟨d1, hfs1, hfl1⟩ :=
        parseOrExpr_filters_spec (innerFuel ⟨t :: ts, kws, fs⟩) ⟨t :: ts, kws, fs⟩
      rcases h1 : parseOrExpr (innerFuel ⟨t :: ts, kws, fs⟩) ⟨t :: ts, kws, fs⟩ with ⟨e1, s1⟩
      rw [h1] at hfs1 hfl1
      cases e1 with
      | some e =>
        obtain ⟨d2, hfs2, hfl2⟩ := ih s1 (acc ++ [e])
        refine ⟨d1 ++ d2, ?_, ?_⟩
        · simp only [parseLoop, h1]
          rw [hfs2, hfs1]
          simp [List.append_assoc]
        · simp only [parseLoop, h1]
          rw [hfl2]
          simp only [flattenOpt] at hfl1
          simp [hfl1, List.append_assoc]
      | none =>
        obtain ⟨d2, hfs2, hfl2⟩ := ih s1 acc
        simp only [flattenOpt] at hfl1
        refine ⟨d2, ?_, ?_⟩
        · simp only [parseLoop, h1]
          rw [hfs2, hfs1, ← hfl1]
          simp
        · simp only [parseLoop, h1]
          exact hfl2

theorem flattenLeaves_foldl_and (es : List FilterExpression) :
    ∀ e, flattenLeaves (es.foldl (fun l r => FilterExpression.and l r) e) =
      flattenLeaves e ++ (es.map flattenLeaves).flatten := by
  induction es with
  | nil => intro e; simp
  | cons x xs ih =>
    intro e
    simp only [List.foldl_cons, List.map_cons, List.flatten]
    rw [ih]
    simp [flattenLeaves, List.append_assoc]

theorem flattenOpt_combineExpressions (es : List FilterExpression) :
    flattenOpt (combineExpressions es) = (es.map flattenLeaves).flatten := by
  cases es with
  | nil => simp [combineExpressions, flattenOpt]
  | cons e rest =>
    simp only [combineExpressions, flattenOpt]
    rw [flattenLeaves_foldl_and]
    simp

/-- Invariant of `ExpressionParser.parse`: the `filters` list is exactly the
flattened leaves of the returned expression. -/
theorem runParse_filters_eq (tokens : List Token) :
    (runParse tokens).filters = flattenOpt (runParse tokens).expression := by
  obtain ⟨d, hfs, hfl⟩ := parseLoop_filters_spec (tokens.length + 1) ⟨tokens, [], []⟩ []
  rcases h1 : parseLoop (tokens.length + 1) ⟨tokens, [], []⟩ [] with ⟨es, s⟩
  rw [h1] at hfs hfl
  simp only [runParse, h1]
  rw [flattenOpt_combineExpressions]
  simp only [List.map_nil] at hfl
  simp only [List.nil_append] at hfs
  rw [hfs, hfl]
  simp

/-! ### Claim C1 -/

/-- C1: for every input string, the `filterExpression` of the returned
`ParsedQuery` is absent if and only if the `filters` list is empty (no field
token resolved to a recognized filter), and `filters` is exactly the list
of leaf filters reachable in `filterExpression`, flattened in the order
each leaf was first encountered during the parse. -/
theorem C1_expression_filters_invariant (input : String) :
    ((parseSearchQuery input).filterExpression = none ↔
      (parseSearchQuery input).filters = []) ∧
    (∀ e, (parseSearchQuery input).filterExpression = some e →
      (parseSearchQuery input).filters = flattenLeaves e) := by
  by_cases hw : input.toList.all isJsSpace = true
  · constructor
    · simp only [parseSearchQuery]
      rw [if_pos hw]
      simp
    · intro e he
      simp only [parseSearchQuery] at he
      rw [if_pos hw] at he
      simp at he
  · have h := runParse_filters_eq (tokenize input)
    constructor
    · simp only [parseSearchQuery]
      rw [if_neg hw]
      show (runParse (tokenize input)).expression = none ↔
        (runParse (tokenize input)).filters = []
      rw [h]
      exact (flattenOpt_eq_nil _).symm
    · intro e he
      simp only [parseSearchQuery] at he ⊢
      rw [if_neg hw] at he ⊢
      have he' : (runParse (tokenize input)).expression = some e := he
      show (runParse (tokenize input)).filters = flattenLeaves e
      rw [h, he']
      simp [flattenOpt]

theorem C1_expression_filters_invariant_witness :
    (parseSearchQuery "from:john").filterExpression =
      some (.filter ⟨.«from», .eq, .s "john"⟩) ∧
    (parseSearchQuery "from:john").filters =
      flattenLeaves (.filter ⟨.«from», .eq, .s "john"⟩) :=
  ⟨by decide, (C1_expression_filters_invariant "from:john").2 _ (by decide)⟩

/-! ### Claim C2 -/

/-- C2: the parser terminates on every input and the cursor strictly
advances to the end of the stream: every invocation of the `or_expr` parse
on a nonempty token stream consumes at least one token (with the fuel
`runParse` supplies, any fuel of at least 4), and the top-level driving loop
as invoked by `runParse` always ends with an empty token stream. -/
theorem C2_parse_terminates :
    (∀ (s : PState) (fuel : Nat), 4 ≤ fuel → s.toks ≠ [] →
      ((parseOrExpr fuel s).2).toks.length < s.toks.length) ∧
    (∀ tokens : List Token,
      ((parseLoop (tokens.length + 1) ⟨tokens, [], []⟩ []).2).toks = []) :=
  ⟨fun s fuel hf hne => parseOrExpr_toks_lt fuel s hf hne,
   fun tokens => parseLoop_toks_nil _ _ _ (Nat.lt_succ_self tokens.length)⟩

theorem C2_parse_terminates_witness :
    ((parseOrExpr 4 ⟨[Token.rparen], [], []⟩).2).toks.length < 1 ∧
    ((parseLoop 2 ⟨[Token.rparen], [], []⟩ []).2).toks = [] := by
  constructor
  · simpa using C2_parse_terminates.1 ⟨[Token.rparen], [], []⟩ 4 (by omega) (by simp)
  · simpa using C2_parse_terminates.2 [Token.rparen]

/-! ### Claim C6 -/

/-- C6: unmatched parentheses never cause a failure.  `parse("from:john)")`
and `parse("(from:john")` each return exactly one filter `{from, eq, "john"}`
with that leaf as the expression; moreover a stray close parenthesis with no
corresponding open is skipped by `parsePrimary` and parsing continues. -/
theorem C6_paren_recovery :
    parseSearchQuery "from:john)" =
      ⟨"", [⟨.«from», .eq, .s "john"⟩], some (.filter ⟨.«from», .eq, .s "john"⟩)⟩ ∧
    parseSearchQuery "(from:john" =
      ⟨"", [⟨.«from», .eq, .s "john"⟩], some (.filter ⟨.«from», .eq, .s "john"⟩)⟩ ∧
    (∀ (fuel : Nat) (ts : List Token) (kws : List String) (fs : List QueryFilter),
      parsePrimary (fuel + 1) ⟨Token.rparen :: ts, kws, fs⟩ = (none, ⟨ts, kws, fs⟩)) :=
  ⟨by decide, by decide, fun fuel ts kws fs => by simp [parsePrimary]⟩

/-! ### Claim C7 -/

/-- Tokens that are boolean operators. -/
def Token.isBoolOp : Token → Bool
  | .and | .or | .not => true
  | _ => false

theorem combineAnd_none_right (l : Option FilterExpression) : combineAnd l none = l := by
  cases l <;> rfl

theorem combineOr_none_right (l : Option FilterExpression) : combineOr l none = l := by
  cases l <;> rfl

theorem parse_boolOps_only (fuel : Nat) :
    (∀ s, (∀ t ∈ s.toks, t.isBoolOp = true) →
      (parsePrimary fuel s).1 = none ∧ ((parsePrimary fuel s).2).kws = s.kws ∧
      ((parsePrimary fuel s).2).fs = s.fs ∧
      ∀ t ∈ ((parsePrimary fuel s).2).toks, t.isBoolOp = true) ∧
    (∀ s, (∀ t ∈ s.toks, t.isBoolOp = true) →
      (parseNotExpr fuel s).1 = none ∧ ((parseNotExpr fuel s).2).kws = s.kws ∧
      ((parseNotExpr fuel s).2).fs = s.fs ∧
      ∀ t ∈ ((parseNotExpr fuel s).2).toks, t.isBoolOp = true) ∧
    (∀ left s, (∀ t ∈ s.toks, t.isBoolOp = true) →
      (parseAndLoop fuel left s).1 = left ∧ ((parseAndLoop fuel left s).2).kws = s.kws ∧
      ((parseAndLoop fuel left s).2).fs = s.fs ∧
      ∀ t ∈ ((parseAndLoop fuel left s).2).toks, t.isBoolOp = true) ∧
    (∀ s, (∀ t ∈ s.toks, t.isBoolOp = true) →
      (parseAndExpr fuel s).1 = none ∧ ((parseAndExpr fuel s).2).kws = s.kws ∧
      ((parseAndExpr fuel s).2).fs = s.fs ∧
      ∀ t ∈ ((parseAndExpr fuel s).2).toks, t.isBoolOp = true) ∧
    (∀ left s, (∀ t ∈ s.toks, t.isBoolOp = true) →
      (parseOrLoop fuel left s).1 = left ∧ ((parseOrLoop fuel left s).2).kws = s.kws ∧
      ((parseOrLoop fuel left s).2).fs = s.fs ∧
      ∀ t ∈ ((parseOrLoop fuel left s).2).toks, t.isBoolOp = true) ∧
    (∀ s, (∀ t ∈ s.toks, t.isBoolOp = true) →
      (parseOrExpr fuel s).1 = none ∧ ((parseOrExpr fuel s).2).kws = s.kws ∧
      ((parseOrExpr fuel s).2).fs = s.fs ∧
      ∀ t ∈ ((parseOrExpr fuel s).2).toks, t.isBoolOp = true) := by
  induction fuel with
  | zero =>
    refine ⟨fun s h => ?_, fun s h => ?_, fun left s h => ?_, fun s h => ?_,
      fun left s h => ?_, fun s h => ?_⟩ <;>
      simpa [parsePrimary, parseNotExpr, parseAndLoop, parseAndExpr, parseOrLoop,
        parseOrExpr] using h
  | succ f ih =>
    obtain ⟨ihP, ihN, ihAL, ihA, ihOL, ihO⟩ := ih
    have hP : ∀ s, (∀ t ∈ s.toks, t.isBoolOp = true) →
        (parsePrimary (f + 1) s).1 = none ∧ ((parsePrimary (f + 1) s).2).kws = s.kws ∧
        ((parsePrimary (f + 1) s).2).fs = s.fs ∧
        ∀ t ∈ ((parsePrimary (f + 1) s).2).toks, t.isBoolOp = true := by
      rintro ⟨toks, kws, fs⟩ h
      cases toks with
      | nil => simp [parsePrimary]
      | cons t ts =>
        have hh := h t (by simp)
        have hts : ∀ x ∈ ts, x.isBoolOp = true := fun x hx => h x (by simp [hx])
        cases t <;> simp [Token.isBoolOp] at hh <;>
          simpa [parsePrimary] using hts
    have hN : ∀ s, (∀ t ∈ s.toks, t.isBoolOp = true) →
        (parseNotExpr (f + 1) s).1 = none ∧ ((parseNotExpr (f + 1) s).2).kws = s.kws ∧
        ((parseNotExpr (f + 1) s).2).fs = s.fs ∧
        ∀ t ∈ ((parseNotExpr (f + 1) s).2).toks, t.isBoolOp = true := by
      rintro ⟨toks, kws, fs⟩ h
      cases toks with
      | nil => simpa [parseNotExpr] using ihP ⟨[], kws, fs⟩ (by simp)
      | cons t ts =>
        have hh := h t (by simp)
        have hts : ∀ x ∈ ts, x.isBoolOp = true := fun x hx => h x (by simp [hx])
        cases t <;> simp [Token.isBoolOp] at hh
        case not =>
          obtain ⟨h1, h2, h3, h4⟩ := ihN ⟨ts, kws, fs⟩ hts
          rcases hr : parseNotExpr f ⟨ts, kws, fs⟩ with ⟨e1, s1⟩
          rw [hr] at h1 h2 h3 h4
          subst h1
          simpa [parseNotExpr, hr] using ⟨h2, h3, h4⟩
        case and => exact ihP ⟨Token.and :: ts, kws, fs⟩ h
        case or => exact ihP ⟨Token.or :: ts, kws, fs⟩ h
    have hAL : ∀ left s, (∀ t ∈ s.toks, t.isBoolOp = true) →
        (parseAndLoop (f + 1) left s).1 = left ∧
        ((parseAndLoop (f + 1) left s).2).kws = s.kws ∧
        ((parseAndLoop (f + 1) left s).2).fs = s.fs ∧
        ∀ t ∈ ((parseAndLoop (f + 1) left s).2).toks, t.isBoolOp = true := by
      rintro left ⟨toks, kws, fs⟩ h
      cases toks with
      | nil => simp [parseAndLoop]
      | cons t ts =>
        have hh := h t (by simp)
        have hts : ∀ x ∈ ts, x.isBoolOp = true := fun x hx => h x (by simp [hx])
        cases t <;> simp [Token.isBoolOp] at hh
        case and =>
          obtain ⟨h1, h2, h3, h4⟩ := ihN ⟨ts, kws, fs⟩ hts
          rcases hr : parseNotExpr f ⟨ts, kws, fs⟩ with ⟨e1, s1⟩
          rw [hr] at h1 h2 h3 h4
          subst h1
          obtain ⟨g1, g2, g3, g4⟩ := ihAL left s1 h4
          simp only [parseAndLoop, hr]
          rw [combineAnd_none_right]
          exact ⟨g1, by rw [g2, h2], by rw [g3, h3], g4⟩
        case not =>
          obtain ⟨h1, h2, h3, h4⟩ := ihN ⟨Token.not :: ts, kws, fs⟩ h
          rcases hr : parseNotExpr f ⟨Token.not :: ts, kws, fs⟩ with ⟨e1, s1⟩
          rw [hr] at h1 h2 h3 h4
          subst h1
          obtain ⟨g1, g2, g3, g4⟩ := ihAL left s1 h4
          simp only [parseAndLoop, hr]
          rw [combineAnd_none_right]
          exact ⟨g1, by rw [g2, h2], by rw [g3, h3], g4⟩
        case or => simpa [parseAndLoop] using h
    have hA : ∀ s, (∀ t ∈ s.toks, t.isBoolOp = true) →
        (parseAndExpr (f + 1) s).1 = none ∧ ((parseAndExpr (f + 1) s).2).kws = s.kws ∧
        ((parseAndExpr (f + 1) s).2).fs = s.fs ∧
        ∀ t ∈ ((parseAndExpr (f + 1) s).2).toks, t.isBoolOp = true := by
      intro s h
      obtain ⟨h1, h2, h3, h4⟩ := ihN s h
      rcases hr : parseNotExpr f s with ⟨e1, s1⟩
      rw [hr] at h1 h2 h3 h4
      subst h1
      obtain ⟨g1, g2, g3, g4⟩ := ihAL none s1 h4
      simp only [parseAndExpr, hr]
      exact ⟨g1, by rw [g2, h2], by rw [g3, h3], g4⟩
    have hOL : ∀ left s, (∀ t ∈ s.toks, t.isBoolOp = true) →
        (parseOrLoop (f + 1) left s).1 = left ∧
        ((parseOrLoop (f + 1) left s).2).kws = s.kws ∧
        ((parseOrLoop (f + 1) left s).2).fs = s.fs ∧
        ∀ t ∈ ((parseOrLoop (f + 1) left s).2).toks, t.isBoolOp = true := by
      rintro left ⟨toks, kws, fs⟩ h
      cases toks with
      | nil => simp [parseOrLoop]
      | cons t ts =>
        have hh := h t (by simp)
        have hts : ∀ x ∈ ts, x.isBoolOp = true := fun x hx => h x (by simp [hx])
        cases t <;> simp [Token.isBoolOp] at hh
        case or =>
          obtain ⟨h1, h2, h3, h4⟩ := ihA ⟨ts, kws, fs⟩ hts
          rcases hr : parseAndExpr f ⟨ts, kws, fs⟩ with ⟨e1, s1⟩
          rw [hr] at h1 h2 h3 h4
          subst h1
          obtain ⟨g1, g2, g3, g4⟩ := ihOL left s1 h4
          simp only [parseOrLoop, hr]
          rw [combineOr_none_right]
          exact ⟨g1, by rw [g2, h2], by rw [g3, h3], g4⟩
        case and => simpa [parseOrLoop] using h
        case not => simpa [parseOrLoop] using h
    have hO : ∀ s, (∀ t ∈ s.toks, t.isBoolOp = true) →
        (parseOrExpr (f + 1) s).1 = none ∧ ((parseOrExpr (f + 1) s).2).kws = s.kws ∧
        ((parseOrExpr (f + 1) s).2).fs = s.fs ∧
        ∀ t ∈ ((parseOrExpr (f + 1) s).2).toks, t.isBoolOp = true := by
      intro s h
      obtain ⟨h1, h2, h3, h4⟩ := ihA s h
      rcases hr : parseAndExpr f s with ⟨e1, s1⟩
      rw [hr] at h1 h2 h3 h4
      subst h1
      obtain ⟨g1, g2, g3, g4⟩ := ihOL none s1 h4
      simp only [parseOrExpr, hr]
      exact ⟨g1, by rw [g2, h2], by rw [g3, h3], g4⟩
    exact ⟨hP, hN, hAL, hA, hOL, hO⟩

theorem parseLoop_boolOps_only :
    ∀ (fuel : Nat) (s : PState) (acc : List FilterExpression),
      (∀ t ∈ s.toks, t.isBoolOp = true) →
      (parseLoop fuel s acc).1 = acc ∧ ((parseLoop fuel s acc).2).kws = s.kws ∧
      ((parseLoop fuel s acc).2).fs = s.fs := by
  intro fuel
  induction fuel with
  | zero => intro s acc h; simp [parseLoop]
  | succ f ih =>
    rintro ⟨toks, kws, fs⟩ acc h
    cases toks with
    | nil => simp [parseLoop]
    | cons t ts =>
      obtain ⟨h1, h2, h3, h4⟩ :=
        (parse_boolOps_only (innerFuel ⟨t :: ts, kws, fs⟩)).2.2.2.2.2 ⟨t :: ts, kws, fs⟩ h
      rcases hr : parseOrExpr (innerFuel ⟨t :: ts, kws, fs⟩) ⟨t :: ts, kws, fs⟩ with ⟨e1, s1⟩
      rw [hr] at h1 h2 h3 h4
      subst h1
      obtain ⟨g1, g2, g3⟩ := ih s1 acc h4
      simp only [parseLoop, hr]
      exact ⟨g1, by rw [g2, h2], by rw [g3, h3]⟩

theorem runParse_boolOps_only (tokens : List Token)
    (h : ∀ t ∈ tokens, t.isBoolOp = true) : runParse tokens = ⟨none, "", []⟩ := by
  obtain ⟨h1, h2, h3⟩ := parseLoop_boolOps_only (tokens.length + 1) ⟨tokens, [], []⟩ [] h
  rcases hl : parseLoop (tokens.length + 1) ⟨tokens, [], []⟩ [] with ⟨es, s⟩
  rw [hl] at h1 h2 h3
  subst h1
  simp only [runParse, hl]
  rw [h2, h3]
  rfl

/-- C7: a boolean operator with no following operand contributes nothing and
is silently dropped.  Any input all of whose tokens are boolean operators
parses to `{keywords: "", filters: [], filterExpression: null}`, and an
input ending in a dangling operator (e.g. `from:a AND`) yields the
expression of what precedes the operator. -/
theorem C7_dangling_operators :
    (∀ input : String, (∀ t ∈ tokenize input, t.isBoolOp = true) →
      parseSearchQuery input = ⟨"", [], none⟩) ∧
    parseSearchQuery "NOT" = ⟨"", [], none⟩ ∧
    parseSearchQuery "from:a AND" =
      ⟨"", [⟨.«from», .eq, .s "a"⟩], some (.filter ⟨.«from», .eq, .s "a"⟩)⟩ := by
  refine ⟨?_, by decide, by decide⟩
  intro input h
  by_cases hw : input.toList.all isJsSpace = true
  · simp only [parseSearchQuery]
    rw [if_pos hw]
  · simp only [parseSearchQuery]
    rw [if_neg hw, runParse_boolOps_only _ h]

theorem C7_dangling_operators_witness :
    (∀ t ∈ tokenize "AND OR NOT", t.isBoolOp = true) ∧
    parseSearchQuery "AND OR NOT" = ⟨"", [], none⟩ :=
  ⟨by decide, C7_dangling_operators.1 "AND OR NOT" (by decide)⟩

/-! ### Claim C3 -/

/-- C3 as stated is false for the quoted field-token form: the original
token text `foo:"bar baz"` contains double quotes, but the re-emitted
keyword text is `foo:bar baz` (the captured value has its quotes stripped),
so the reconstruction is not byte-for-byte. -/
theorem C3_counterexample_quoted_field :
    tokenize "foo:\"bar baz\"" = [Token.field "foo" "bar baz"] ∧
    parseSearchQuery "foo:\"bar baz\"" = ⟨"foo:bar baz", [], none⟩ ∧
    ("foo:bar baz" : String) ≠ "foo:\"bar baz\"" := by
  refine ⟨by decide, by decide, by decide⟩

/-- C3 (amended): whenever a `Field` token fails resolution, the parser
appends the literal `name:value` text to the keyword accumulator.  For a
field token produced from the unquoted `word:value` source form this is
byte-for-byte the original token text (third conjunct: the consumed source
characters are exactly `name ++ ":" ++ value`); for the quoted form
`word:"quoted value"` the re-emitted text drops the double quotes. -/
theorem C3_keyword_reemission :
    (∀ (fuel : Nat) (fname fval : String) (ts : List Token) (kws : List String)
      (fs : List QueryFilter), fieldTokenToFilter fname fval = none →
      parsePrimary (fuel + 1) ⟨Token.field fname fval :: ts, kws, fs⟩ =
        (none, ⟨ts, kws ++ [fname ++ ":" ++ fval], fs⟩)) ∧
    (∀ (l : List Char) (fname fval : String) (rest : List Char),
      tryFieldPlain l = some (fname, fval, rest) →
      l = fname.toList ++ ':' :: (fval.toList ++ rest)) ∧
    (parseSearchQuery "foo:\"bar baz\"").keywords = "foo:bar baz" := by
  refine ⟨?_, ?_, by decide⟩
  · intro fuel fname fval ts kws fs h
    simp [parsePrimary, h]
  · intro l fname fval rest h
    simp only [tryFieldPlain] at h
    split at h
    · exact absurd h (by simp)
    · rename_i hw
      split at h
      · rename_i rest0 hd
        split at h
        · exact absurd h (by simp)
        · rename_i hv
          simp only [Option.some.injEq, Prod.mk.injEq] at h
          obtain ⟨hf, hv2, hr⟩ := h
          subst hf hv2 hr
          have h2 : rest0.takeWhile isValueChar ++ rest0.dropWhile isValueChar = rest0 :=
            List.takeWhile_append_dropWhile isValueChar rest0
          have h1 : l.takeWhile isWordChar ++ (':' :: rest0) = l := by
            rw [← hd]
            exact List.takeWhile_append_dropWhile isWordChar l
          conv_lhs => rw [← h1]
          show _ = List.takeWhile isWordChar l ++
            ':' :: (List.takeWhile isValueChar rest0 ++ List.dropWhile isValueChar rest0)
          rw [h2]
      · exact absurd h (by simp)

theorem C3_keyword_reemission_witness :
    parsePrimary 1 ⟨[Token.field "foo" "bar"], [], []⟩ = (none, ⟨[], ["foo:bar"], []⟩) ∧
    ("foo:bar".toList = "foo".toList ++ ':' :: ("bar".toList ++ [])) :=
  ⟨C3_keyword_reemission.1 0 "foo" "bar" [] [] [] (by decide),
   C3_keyword_reemission.2.1 "foo:bar".toList "foo" "bar" [] (by decide)⟩

/-! ### Claim C5 -/

/-- C5: implicit AND.  When inside `and_expr` the next token begins a new
primary (`Field`, `Not`, or `LParen`) with no `AND` token present, the loop
behaves exactly as if an explicit `AND` token had been written before it;
in particular `parse("from:a from:b")` yields
`And(Leaf{from,eq,"a"}, Leaf{from,eq,"b"})`. -/
theorem C5_implicit_and :
    (∀ (f : Nat) (left : Option FilterExpression) (t : Token) (ts : List Token)
      (kws : List String) (fs : List QueryFilter),
      ((∃ a b, t = Token.field a b) ∨ t = Token.not ∨ t = Token.lparen) →
      parseAndLoop (f + 1) left ⟨Token.and :: t :: ts, kws, fs⟩ =
        parseAndLoop (f + 1) left ⟨t :: ts, kws, fs⟩) ∧
    parseSearchQuery "from:a from:b" =
      ⟨"", [⟨.«from», .eq, .s "a"⟩, ⟨.«from», .eq, .s "b"⟩],
        some (.and (.filter ⟨.«from», .eq, .s "a"⟩) (.filter ⟨.«from», .eq, .s "b"⟩))⟩ := by
  refine ⟨?_, by decide⟩
  rintro f left t ts kws fs (⟨a, b, rfl⟩ | rfl | rfl) <;> simp [parseAndLoop]

theorem C5_implicit_and_witness :
    parseAndLoop 5 none ⟨[Token.and, Token.field "from" "b"], [], []⟩ =
      parseAndLoop 5 none ⟨[Token.field "from" "b"], [], []⟩ :=
  C5_implicit_and.1 4 none (Token.field "from" "b") [] [] [] (Or.inl ⟨"from", "b", rfl⟩)

/-! ### Claim C9 -/

/-- C9: a field token named (case-insensitively) `before` resolves to
`Filter{timestamp, lt, epochMillis}` exactly when its value parses as a
date, and `after` likewise with `gte`; a value that does not parse yields
`None`.  For the ISO date `2024-01-01` the epoch value is the UTC midnight
`1704067200000`. -/
theorem C9_before_after_dates :
    (∀ (name value : String) (ms : Int), lowerStr name = "before" →
      jsDateMillis value = some ms →
      fieldTokenToFilter name value = some ⟨.timestamp, .lt, .n ms⟩) ∧
    (∀ name value : String, lowerStr name = "before" → jsDateMillis value = none →
      fieldTokenToFilter name value = none) ∧
    (∀ (name value : String) (ms : Int), lowerStr name = "after" →
      jsDateMillis value = some ms →
      fieldTokenToFilter name value = some ⟨.timestamp, .gte, .n ms⟩) ∧
    (∀ name value : String, lowerStr name = "after" → jsDateMillis value = none →
      fieldTokenToFilter name value = none) ∧
    parseSearchQuery "before:2024-01-01" =
      ⟨"", [⟨.timestamp, .lt, .n 1704067200000⟩],
        some (.filter ⟨.timestamp, .lt, .n 1704067200000⟩)⟩ := by
  refine ⟨?_, ?_, ?_, ?_, by decide⟩
  · intro name value ms hname hdate
    simp [fieldTokenToFilter, hname, hdate]
  · intro name value hname hdate
    simp [fieldTokenToFilter, hname, hdate, fieldMap]
  · intro name value ms hname hdate
    simp [fieldTokenToFilter, hname, hdate]
  · intro name value hname hdate
    simp [fieldTokenToFilter, hname, hdate, fieldMap]

theorem C9_before_after_dates_witness :
    fieldTokenToFilter "before" "2024-01-01" =
      some ⟨.timestamp, .lt, .n 1704067200000⟩ ∧
    fieldTokenToFilter "After" "not-a-date" = none :=
  ⟨C9_before_after_dates.1 "before" "2024-01-01" 1704067200000 (by decide) (by decide),
   C9_before_after_dates.2.2.2.1 "After" "not-a-date" (by decide) (by decide)⟩

/-! ### Claim C4 -/

/-- Operator rendering as enumerated by the spec (§4.4): `eq lt gt lte gte`
render as `= < > <= >=` respectively. -/
def specOperatorRender : QueryFilterOperator → String
  | .eq => "="
  | .lt => "<"
  | .gt => ">"
  | .lte => "<="
  | .gte => ">="

/-- Escaping as worded by the spec: every internal double quote is
backslash-escaped. -/
def specEscape (v : String) : String :=
  String.mk (v.toList.flatMap (fun c => if c = '"' then ['\\', '"'] else [c]))

/-- Value rendering as worded by the spec: booleans as `true`/`false`,
numbers as decimal integers, strings wrapped in double quotes with internal
quotes escaped. -/
def specRenderValue : FilterValue → String
  | .b true => "true"
  | .b false => "false"
  | .n n => toString n
  | .s v => "\"" ++ specEscape v ++ "\""

/-- Leaf rendering as worded by the spec: `"<field> <op> <value>"`. -/
def specRenderLeaf (f : QueryFilter) : String :=
  joinSep " " [f.field.render, specOperatorRender f.operator, specRenderValue f.value]

/-- Tree rendering as worded by the spec (§4.4): `And` without enclosing
parentheses, `Or` always parenthesized, `Not` always parenthesized. -/
def specRender : FilterExpression → String
  | .filter f => specRenderLeaf f
  | .and l r => specRender l ++ " AND " ++ specRender r
  | .or l r => "(" ++ specRender l ++ " OR " ++ specRender r ++ ")"
  | .not x => "NOT (" ++ specRender x ++ ")"

theorem escFoldr_eq_flatMap : ∀ l : List Char,
    List.foldr (fun c acc => if c = '"' then '\\' :: '"' :: acc else c :: acc) [] l =
      l.flatMap (fun c => if c = '"' then ['\\', '"'] else [c]) := by
  intro l
  induction l with
  | nil => rfl
  | cons c cs ih => by_cases hc : c = '"' <;> simp [hc, ih]

theorem escapeQuotes_eq_specEscape (v : String) : escapeQuotes v = specEscape v := by
  show String.mk _ = String.mk _
  congr 1
  exact escFoldr_eq_flatMap v.toList

theorem filterToMeiliString_eq_spec (f : QueryFilter) :
    filterToMeiliString f = specRenderLeaf f := by
  rcases f with ⟨field, op, value⟩
  cases value with
  | b b =>
    cases b <;>
      simp [filterToMeiliString, specRenderLeaf, specRenderValue, joinSep, operatorMap,
        specOperatorRender, String.append_assoc]
  | n n =>
    simp [filterToMeiliString, specRenderLeaf, specRenderValue, joinSep,
      String.append_assoc]
    cases op <;> rfl
  | s v =>
    simp [filterToMeiliString, specRenderLeaf, specRenderValue, joinSep,
      String.append_assoc, escapeQuotes_eq_specEscape]
    cases op <;> rfl

/-- C4: the tree compiler renders exactly as the spec describes: leaves as
`<field> <op> <value>` with the operator map `= < > <= >=`, booleans as
`true`/`false`, numbers as decimal integers, strings double-quoted with
internal quotes backslash-escaped; `And` without enclosing parentheses,
`Or` and `Not` always parenthesized.  The second conjunct is the spec's
quote-escaping example. -/
theorem C4_meili_rendering :
    (∀ e : FilterExpression, filterExpressionToMeiliString e = specRender e) ∧
    filterToMeiliString ⟨.subject, .eq, .s "say \"hello\""⟩ =
      "subject = \"say \\\"hello\\\"\"" := by
  refine ⟨?_, by decide⟩
  intro e
  induction e with
  | filter f => exact filterToMeiliString_eq_spec f
  | and l r ihl ihr => simp [filterExpressionToMeiliString, specRender, ihl, ihr]
  | or l r ihl ihr => simp [filterExpressionToMeiliString, specRender, ihl, ihr]
  | not x ih => simp [filterExpressionToMeiliString, specRender, ih]

/-! ### Claim C10 -/

/-- Test for a filter whose string value contains a double quote. -/
def hasQuoteValue (f : QueryFilter) : Bool :=
  match f.value with
  | .s v => v.toList.contains '"'
  | _ => false

/-- Number of double quotes in a filter's string value. -/
def quoteCount (f : QueryFilter) : Nat :=
  match f.value with
  | .s v => v.toList.count '"'
  | _ => 0

theorem escFoldr_eq_self (l : List Char) (h : ∀ c ∈ l, c ≠ '"') :
    List.foldr (fun c acc => if c = '"' then '\\' :: '"' :: acc else c :: acc) [] l = l := by
  induction l with
  | nil => rfl
  | cons c cs ih =>
    have hc := h c (by simp)
    simp [hc, ih (fun x hx => h x (by simp [hx]))]

theorem escapeQuotes_eq_self (v : String) (h : v.toList.contains '"' = false) :
    escapeQuotes v = v := by
  have h' : ∀ c ∈ v.toList, c ≠ '"' := by
    intro c hc he
    subst he
    have : '"' ∉ v.toList := by simpa using h
    exact this hc
  show String.mk _ = v
  conv_rhs => rw [show v = String.mk v.toList from rfl]
  congr 1
  exact escFoldr_eq_self v.toList h'

theorem escFoldr_length (l : List Char) :
    (List.foldr (fun c acc => if c = '"' then '\\' :: '"' :: acc else c :: acc) [] l).length =
      l.length + l.count '"' := by
  induction l with
  | nil => rfl
  | cons c cs ih =>
    by_cases hc : c = '"'
    · subst hc
      simp [ih, List.count_cons]
      omega
    · simp [hc, ih, List.count_cons, Ne.symm hc]
      omega

theorem escapeQuotes_length (v : String) :
    (escapeQuotes v).length = v.length + v.toList.count '"' :=
  escFoldr_length v.toList

theorem legacy_core_leaf_eq (f : QueryFilter) (h : hasQuoteValue f = false) :
    Legacy.filterToMeiliString f = filterToMeiliString f := by
  rcases f with ⟨field, op, value⟩
  cases value with
  | b b => rfl
  | n n => rfl
  | s v =>
    simp only [Legacy.filterToMeiliString, filterToMeiliString]
    rw [escapeQuotes_eq_self v (by simpa [hasQuoteValue] using h)]

theorem legacy_core_leaf_length (f : QueryFilter) :
    (filterToMeiliString f).length =
      (Legacy.filterToMeiliString f).length + quoteCount f := by
  rcases f with ⟨field, op, value⟩
  cases value with
  | b b => simp [quoteCount, filterToMeiliString, Legacy.filterToMeiliString]
  | n n => simp [quoteCount, filterToMeiliString, Legacy.filterToMeiliString]
  | s v =>
    simp [filterToMeiliString, Legacy.filterToMeiliString, quoteCount,
      String.length_append, escapeQuotes_length]
    omega

theorem legacy_core_length (fs : List QueryFilter) :
    (filtersToMeiliString fs).length =
      (Legacy.filtersToMeiliString fs).length + (fs.map quoteCount).sum := by
  induction fs with
  | nil => rfl
  | cons f rest ih =>
    cases rest with
    | nil =>
      simpa [filtersToMeiliString, Legacy.filtersToMeiliString, joinSep] using
        legacy_core_leaf_length f
    | cons g rest2 =>
      simp only [filtersToMeiliString, Legacy.filtersToMeiliString, List.map_cons,
        joinSep, String.length_append, List.sum_cons] at ih ⊢
      have hleaf := legacy_core_leaf_length f
      omega

/-- C10: the legacy flat-list compiler and the core flat-list compiler agree
on every filter list whose string values contain no double quote, and
disagree on every list containing a string value with an embedded double
quote (the core escapes it, the legacy version does not). -/
theorem C10_legacy_core_agreement :
    (∀ fs : List QueryFilter, (∀ f ∈ fs, hasQuoteValue f = false) →
      Legacy.filtersToMeiliString fs = filtersToMeiliString fs) ∧
    (∀ fs : List QueryFilter, (∃ f ∈ fs, hasQuoteValue f = true) →
      Legacy.filtersToMeiliString fs ≠ filtersToMeiliString fs) := by
  constructor
  · intro fs
    induction fs with
    | nil => intro h; rfl
    | cons f rest ih =>
      intro h
      have hf := h f (by simp)
      have hrest : ∀ g ∈ rest, hasQuoteValue g = false := fun g hg => h g (by simp [hg])
      cases rest with
      | nil =>
        simpa [filtersToMeiliString, Legacy.filtersToMeiliString, joinSep] using
          legacy_core_leaf_eq f hf
      | cons g rest2 =>
        have ih' := ih hrest
        simp only [filtersToMeiliString, Legacy.filtersToMeiliString, List.map_cons,
          joinSep] at ih' ⊢
        rw [legacy_core_leaf_eq f hf, ih']
  · rintro fs ⟨f, hmem, hq⟩ heq
    have hlen := legacy_core_length fs
    have hqc : 0 < quoteCount f := by
      rcases f with ⟨field, op, value⟩
      cases value with
      | b b => simp [hasQuoteValue] at hq
      | n n => simp [hasQuoteValue] at hq
      | s v =>
        have : '"' ∈ v.toList := by simpa [hasQuoteValue] using hq
        simpa [quoteCount] using List.count_pos_iff.mpr this
    have hsum : quoteCount f ≤ (fs.map quoteCount).sum :=
      List.single_le_sum (fun x _ => Nat.zero_le x) _ (List.mem_map_of_mem quoteCount hmem)
    rw [heq] at hlen
    omega

/-! ### Claim C8 -/

/-- Tail of an `OR` chain: `OR f₂ OR f₃ …` as field tokens. -/
def orTail : List (String × String) → List Token
  | [] => []
  | p :: rest => Token.or :: Token.field p.1 p.2 :: orTail rest

/-- Tail of an `AND` chain: `AND f₂ AND f₃ …` as field tokens. -/
def andTail : List (String × String) → List Token
  | [] => []
  | p :: rest => Token.and :: Token.field p.1 p.2 :: andTail rest

/-- Resolution of a field token's name/value pair to a filter. -/
abbrev ResolvesTo (p : String × String) (q : QueryFilter) : Prop :=
  fieldTokenToFilter p.1 p.2 = some q

theorem orTail_shape (ps : List (String × String)) :
    orTail ps = [] ∨ ∃ ts', orTail ps = Token.or :: ts' := by
  cases ps <;> simp [orTail]

theorem orTail_length (ps : List (String × String)) :
    (orTail ps).length = 2 * ps.length := by
  induction ps with
  | nil => rfl
  | cons p rest ih => simp [orTail, ih]; omega

theorem andTail_length (ps : List (String × String)) :
    (andTail ps).length = 2 * ps.length := by
  induction ps with
  | nil => rfl
  | cons p rest ih => simp [andTail, ih]; omega

theorem parseNotExpr_field (g : Nat) (hg : 2 ≤ g) (p : String × String) (q : QueryFilter)
    (hq : ResolvesTo p q) (ts : List Token) (kws : List String) (fs : List QueryFilter) :
    parseNotExpr g ⟨Token.field p.1 p.2 :: ts, kws, fs⟩ =
      (some (.filter q), ⟨ts, kws, fs ++ [q]⟩) := by
  obtain ⟨g2, rfl⟩ : ∃ g2, g = g2 + 2 := ⟨g - 2, by omega⟩
  have hq' : fieldTokenToFilter p.1 p.2 = some q := hq
  simp [parseNotExpr, parsePrimary, hq']

theorem parseAndExpr_field_stop (f : Nat) (hf : 3 ≤ f) (p : String × String)
    (q : QueryFilter) (hq : ResolvesTo p q) (ts : List Token)
    (hts : ts = [] ∨ ∃ ts', ts = Token.or :: ts')
    (kws : List String) (fs : List QueryFilter) :
    parseAndExpr f ⟨Token.field p.1 p.2 :: ts, kws, fs⟩ =
      (some (.filter q), ⟨ts, kws, fs ++ [q]⟩) := by
  obtain ⟨g, rfl⟩ : ∃ g, f = g + 3 := ⟨f - 3, by omega⟩
  have hn := parseNotExpr_field (g + 2) (by omega) p q hq ts kws fs
  rcases hts with rfl | ⟨ts', rfl⟩ <;>
    simp [parseAndExpr, hn, parseAndLoop]

theorem parseOrLoop_chain :
    ∀ (ps : List (String × String)) (qs : List QueryFilter),
      List.Forall₂ ResolvesTo ps qs →
      ∀ f : Nat, 4 * ps.length + 1 ≤ f →
      ∀ (acc : FilterExpression) (kws : List String) (fs : List QueryFilter),
        parseOrLoop f (some acc) ⟨orTail ps, kws, fs⟩ =
          (some (qs.foldl (fun l r => FilterExpression.or l (.filter r)) acc),
            ⟨[], kws, fs ++ qs⟩) := by
  intro ps qs hpq
  induction hpq with
  | nil =>
    intro f hf acc kws fs
    obtain ⟨g, rfl⟩ : ∃ g, f = g + 1 := ⟨f - 1, by omega⟩
    simp [orTail, parseOrLoop]
  | @cons p q ps' qs' hres hrest ih =>
    intro f hf acc kws fs
    obtain ⟨g, rfl⟩ : ∃ g, f = g + 1 := ⟨f - 1, by omega⟩
    simp only [List.length_cons] at hf
    have hstep := parseAndExpr_field_stop g (by omega) p q hres
      (orTail ps') (orTail_shape ps') kws fs
    simp only [orTail, parseOrLoop, hstep]
    rw [show combineOr (some acc) (some (FilterExpression.filter q)) =
      some (FilterExpression.or acc (.filter q)) from rfl]
    rw [ih g (by omega) (.or acc (.filter q)) kws (fs ++ [q])]
    simp [List.append_assoc]

theorem parseAndLoop_chain :
    ∀ (ps : List (String × String)) (qs : List QueryFilter),
      List.Forall₂ ResolvesTo ps qs →
      ∀ f : Nat, ps.length + 3 ≤ f →
      ∀ (acc : FilterExpression) (kws : List String) (fs : List QueryFilter),
        parseAndLoop f (some acc) ⟨andTail ps, kws, fs⟩ =
          (some (qs.foldl (fun l r => FilterExpression.and l (.filter r)) acc),
            ⟨[], kws, fs ++ qs⟩) := by
  intro ps qs hpq
  induction hpq with
  | nil =>
    intro f hf acc kws fs
    obtain ⟨g, rfl⟩ : ∃ g, f = g + 1 := ⟨f - 1, by omega⟩
    simp [andTail, parseAndLoop]
  | @cons p q ps' qs' hres hrest ih =>
    intro f hf acc kws fs
    obtain ⟨g, rfl⟩ : ∃ g, f = g + 1 := ⟨f - 1, by omega⟩
    simp only [List.length_cons] at hf
    have hn := parseNotExpr_field g (by omega) p q hres (andTail ps') kws fs
    simp only [andTail, parseAndLoop, hn]
    rw [show combineAnd (some acc) (some (FilterExpression.filter q)) =
      some (FilterExpression.and acc (.filter q)) from rfl]
    rw [ih g (by omega) (.and acc (.filter q)) kws (fs ++ [q])]
    simp [List.append_assoc]

theorem runParse_orChain (p : String × String) (ps : List (String × String))
    (q : QueryFilter) (qs : List QueryFilter)
    (hpq : ResolvesTo p q) (hps : List.Forall₂ ResolvesTo ps qs) :
    runParse (Token.field p.1 p.2 :: orTail ps) =
      ⟨some (qs.foldl (fun l r => FilterExpression.or l (.filter r)) (.filter q)),
        "", q :: qs⟩ := by
  obtain ⟨G, hG⟩ : ∃ G, innerFuel ⟨Token.field p.1 p.2 :: orTail ps, [], []⟩ = G + 1 :=
    ⟨innerFuel ⟨Token.field p.1 p.2 :: orTail ps, [], []⟩ - 1, by simp [innerFuel]⟩
  have hGge : 4 * ps.length + 4 ≤ G := by
    have hl := orTail_length ps
    simp [innerFuel] at hG
    omega
  have hOr : parseOrExpr (G + 1) ⟨Token.field p.1 p.2 :: orTail ps, [], []⟩ =
      (some (qs.foldl (fun l r => FilterExpression.or l (.filter r)) (.filter q)),
        ⟨[], [], q :: qs⟩) := by
    simp only [parseOrExpr]
    rw [parseAndExpr_field_stop G (by omega) p q hpq (orTail ps) (orTail_shape ps) [] []]
    rw [parseOrLoop_chain ps qs hps G (by omega) (.filter q) [] ([] ++ [q])]
    rfl
  simp only [runParse, List.length_cons, parseLoop, hG, hOr]
  simp [parseLoop, combineExpressions, joinSep]

theorem runParse_andChain (p : String × String) (ps : List (String × String))
    (q : QueryFilter) (qs : List QueryFilter)
    (hpq : ResolvesTo p q) (hps : List.Forall₂ ResolvesTo ps qs) :
    runParse (Token.field p.1 p.2 :: andTail ps) =
      ⟨some (qs.foldl (fun l r => FilterExpression.and l (.filter r)) (.filter q)),
        "", q :: qs⟩ := by
  obtain ⟨G, hG⟩ : ∃ G, innerFuel ⟨Token.field p.1 p.2 :: andTail ps, [], []⟩ = G + 2 :=
    ⟨innerFuel ⟨Token.field p.1 p.2 :: andTail ps, [], []⟩ - 2, by simp [innerFuel]⟩
  have hGge : ps.length + 3 ≤ G := by
    have hl := andTail_length ps
    simp [innerFuel] at hG
    omega
  have hOr : parseOrExpr (G + 2) ⟨Token.field p.1 p.2 :: andTail ps, [], []⟩ =
      (some (qs.foldl (fun l r => FilterExpression.and l (.filter r)) (.filter q)),
        ⟨[], [], q :: qs⟩) := by
    have hn := parseNotExpr_field G (by omega) p q hpq (andTail ps) [] []
    simp only [parseOrExpr, parseAndExpr, hn]
    rw [parseAndLoop_chain ps qs hps G (by omega) (.filter q) [] ([] ++ [q])]
    simp [parseOrLoop]
  simp only [runParse, List.length_cons, parseLoop, hG, hOr]
  simp [parseLoop, combineExpressions, joinSep]

/-- C8: expression trees are built left-associative for both `And` and `Or`:
a chain of three or more resolvable field filters joined by one explicit
operator nests to the left, e.g. `Or(Or(f1,f2),f3)` and `And(And(f1,f2),f3)`
(third and fourth conjuncts); in general the chain folds left over the
resolved leaves (first and second conjuncts). -/
theorem C8_left_associative_chains :
    (∀ (p1 : String × String) (ps : List (String × String)) (q1 : QueryFilter)
       (qs : List QueryFilter), ResolvesTo p1 q1 → List.Forall₂ ResolvesTo ps qs →
       2 ≤ ps.length →
       runParse (Token.field p1.1 p1.2 :: orTail ps) =
         ⟨some (qs.foldl (fun l r => FilterExpression.or l (.filter r)) (.filter q1)),
           "", q1 :: qs⟩) ∧
    (∀ (p1 : String × String) (ps : List (String × String)) (q1 : QueryFilter)
       (qs : List QueryFilter), ResolvesTo p1 q1 → List.Forall₂ ResolvesTo ps qs →
       2 ≤ ps.length →
       runParse (Token.field p1.1 p1.2 :: andTail ps) =
         ⟨some (qs.foldl (fun l r => FilterExpression.and l (.filter r)) (.filter q1)),
           "", q1 :: qs⟩) ∧
    (∀ (p1 p2 p3 : String × String) (q1 q2 q3 : QueryFilter),
       ResolvesTo p1 q1 → ResolvesTo p2 q2 → ResolvesTo p3 q3 →
       (runParse (Token.field p1.1 p1.2 :: orTail [p2, p3])).expression =
         some (.or (.or (.filter q1) (.filter q2)) (.filter q3))) ∧
    (∀ (p1 p2 p3 : String × String) (q1 q2 q3 : QueryFilter),
       ResolvesTo p1 q1 → ResolvesTo p2 q2 → ResolvesTo p3 q3 →
       (runParse (Token.field p1.1 p1.2 :: andTail [p2, p3])).expression =
         some (.and (.and (.filter q1) (.filter q2)) (.filter q3))) := by
  refine ⟨fun p1 ps q1 qs h1 h2 _ => runParse_orChain p1 ps q1 qs h1 h2,
    fun p1 ps q1 qs h1 h2 _ => runParse_andChain p1 ps q1 qs h1 h2, ?_, ?_⟩
  · intro p1 p2 p3 q1 q2 q3 h1 h2 h3
    rw [runParse_orChain p1 [p2, p3] q1 [q2, q3] h1 (.cons h2 (.cons h3 .nil))]
    rfl
  · intro p1 p2 p3 q1 q2 q3 h1 h2 h3
    rw [runParse_andChain p1 [p2, p3] q1 [q2, q3] h1 (.cons h2 (.cons h3 .nil))]
    rfl

theorem C8_left_associative_chains_witness :
    runParse (Token.field "from" "a" :: orTail [("from", "b"), ("from", "c")]) =
      ⟨some (.or (.or (.filter ⟨.«from», .eq, .s "a"⟩) (.filter ⟨.«from», .eq, .s "b"⟩))
          (.filter ⟨.«from», .eq, .s "c"⟩)), "",
        [⟨.«from», .eq, .s "a"⟩, ⟨.«from», .eq, .s "b"⟩, ⟨.«from», .eq, .s "c"⟩]⟩ :=
  C8_left_associative_chains.1 ("from", "a") [("from", "b"), ("from", "c")]
    ⟨.«from», .eq, .s "a"⟩ [⟨.«from», .eq, .s "b"⟩, ⟨.«from», .eq, .s "c"⟩]
    (by decide) (.cons (by decide) (.cons (by decide) .nil)) (by decide)

theorem C10_legacy_core_agreement_witness :
    Legacy.filtersToMeiliString [⟨.«from», .eq, .s "john"⟩] =
      filtersToMeiliString [⟨.«from», .eq, .s "john"⟩] ∧
    Legacy.filtersToMeiliString [⟨.subject, .eq, .s "say \"hi\""⟩] ≠
      filtersToMeiliString [⟨.subject, .eq, .s "say \"hi\""⟩] :=
  ⟨C10_legacy_core_agreement.1 _ (by decide),
   C10_legacy_core_agreement.2 _ ⟨⟨.subject, .eq, .s "say \"hi\""⟩, by decide, by decide⟩⟩

end OpenArchiver
